import Mathlib

/-!
Verification of the portfolio-dashboard presentation layer
(`src/app/static/app.js`) and of the portfolio analytics engine described
by the specification.  The presentation-layer functions are shallowly
embedded from the JavaScript source; the analytics engine is not part of
the repository sources, so its operations are modelled from the
specification text (each such definition carries a doc comment starting
with `Modelled from the spec:`).

Conventions of the embedding:
* JavaScript numbers are modelled as exact rationals `ℚ` (reals only
  where the spec demands a square root); the spec's floating-point
  tolerances are stated over `ℚ`.
* JavaScript strings are Lean `String`s; `null`/`undefined` string inputs
  are modelled as `Option String` where a function distinguishes them.
* Dates are `Nat` (engine model) or ISO-format `String`s (finance table),
  matching how each piece of code compares them.
-/

/- ────────────────────────────────────────────────────────────────
   Definitions: presentation-layer helpers (app.js lines 131-153)
   ──────────────────────────────────────────────────────────────── -/

/-- Entity expansion of one character, as performed by the DOM when a text
node is serialized through `innerHTML` (app.js line 138 builds a `span`,
assigns `textContent` and reads back `innerHTML`).  The serialization
replaces `&`, `<` and `>` by their HTML entities and leaves every other
character unchanged (the additional `U+00A0` entity of the HTML
serialization algorithm is irrelevant to the markup-safety claims and is
not modelled). -/
def escChar (c : Char) : List Char :=
  if c = '&' then "&amp;".data
  else if c = '<' then "&lt;".data
  else if c = '>' then "&gt;".data
  else [c]

/-- Character-wise entity expansion of a whole string. -/
def escCore : List Char → List Char
  | [] => []
  | c :: rest => escChar c ++ escCore rest

/-- Embedding of `esc` (app.js line 138):
`function esc(s) { if (!s) return ""; const e = document.createElement("span");
e.textContent = s; return e.innerHTML; }`.
A falsy input (absent string or empty string) yields `""`; otherwise the
DOM round-trip serializes the text with HTML entities. -/
def esc : Option String → String
  | none => ""
  | some s => if s = "" then "" else ⟨escCore s.data⟩

/-- Inverse of the entity expansion: parses `&amp;` `&lt;` `&gt;` back to
their characters and leaves everything else unchanged.  Used to state that
`esc` loses no information (every significant character is replaced by its
entity, recoverably). -/
def unescCore : List Char → List Char
  | [] => []
  | '&' :: 'a' :: 'm' :: 'p' :: ';' :: rest => '&' :: unescCore rest
  | '&' :: 'l' :: 't' :: ';' :: rest => '<' :: unescCore rest
  | '&' :: 'g' :: 't' :: ';' :: rest => '>' :: unescCore rest
  | c :: rest => c :: unescCore rest

/-- Embedding of the label table of `txLabel` (app.js lines 148-153): a
JavaScript object literal keyed by transaction type, queried with `[t]`. -/
def txLabelMap : List (String × String) :=
  [("PURCHASE", "Kauf"), ("SALE", "Verkauf"),
   ("INBOUND_DELIVERY", "Einlieferung"), ("OUTBOUND_DELIVERY", "Auslieferung"),
   ("SECURITY_TRANSFER", "Transfer"), ("CASH_TRANSFER", "Umbuchung"),
   ("DEPOSIT", "Einzahlung"), ("REMOVAL", "Auszahlung"),
   ("DIVIDEND", "Dividende"), ("INTEREST", "Zinsen"),
   ("INTEREST_CHARGE", "Zinsbelastung"), ("TAX", "Steuer"),
   ("TAX_REFUND", "Steuererstattung"), ("FEE", "Gebühr"),
   ("FEE_REFUND", "Gebührenerstattung")]

/-- Result of the JavaScript property read performed by `txLabel`: either
a string (an own label of the object literal, or the `|| t` fallback), or
a member the object inherits from `Object.prototype` (a function — or,
for `__proto__`, an object — identified here by its property name). -/
inductive JsVal where
  | label : String → JsVal
  | protoMember : String → JsVal
  deriving DecidableEq, Repr

/-- Property names every plain JavaScript object literal inherits from
`Object.prototype` (the ECMAScript standard members plus the Annex B
accessors).  Reading one of them on the label object yields a truthy
function (or object), so the `|| t` fallback does not fire for these
keys. -/
def protoKeys : List String :=
  ["constructor", "hasOwnProperty", "isPrototypeOf", "propertyIsEnumerable",
   "toLocaleString", "toString", "valueOf", "__proto__",
   "__defineGetter__", "__defineSetter__", "__lookupGetter__", "__lookupSetter__"]

/-- Embedding of `txLabel` (app.js lines 148-153): the object-literal
lookup `({...})[t] || t`.  An own key yields its German label (every own
label is a non-empty string, hence truthy, so the fallback never fires
for an own key); a key the object inherits from `Object.prototype` yields
the truthy inherited member, so the fallback does not fire either; any
other key reads `undefined` and falls back to `t` itself. -/
def txLabel (t : String) : JsVal :=
  match txLabelMap.lookup t with
  | some v => .label v
  | none => if t ∈ protoKeys then .protoMember t else .label t

/-- Embedding of the Dividenden-Rendite ternary of `tabDividenden`
(app.js line 757): `c.total_invested>0 ? fmt(d.total/c.total_invested*100,2) : 0`.
The division is performed only under the guard `total_invested > 0`;
otherwise the literal `0` is displayed. -/
def dividendenRendite (total invested : ℚ) : ℚ :=
  if 0 < invested then total / invested * 100 else 0

/- ────────────────────────────────────────────────────────────────
   Definitions: Transaktionen tab (app.js lines 8, 382-401)
   ──────────────────────────────────────────────────────────────── -/

/-- Page size of the Transaktionen tab (app.js line 8: `const TX_PER_PAGE = 30`). -/
def TX_PER_PAGE : Nat := 30

/-- Transaction record as consumed by `tabTransaktionen` (app.js lines
382-401); only the fields the tab's filtering logic reads are modelled,
with `ttype` standing for the JavaScript field `type`. -/
structure ViewTx where
  date : String
  ttype : String
  amount : ℚ
  deriving DecidableEq, Repr

/-- Embedding of the filter step of `tabTransaktionen` (app.js line 384):
`txFilter === "ALL" ? c.all_transactions : c.all_transactions.filter(t => t.type === txFilter)`. -/
def filteredTx (f : String) (txs : List ViewTx) : List ViewTx :=
  if f = "ALL" then txs else txs.filter (fun t => t.ttype == f)

/-- Embedding of the page slice of `tabTransaktionen` (app.js line 385):
`filtered.slice(txPage * TX_PER_PAGE, (txPage + 1) * TX_PER_PAGE)`. -/
def pagedTx (f : String) (txs : List ViewTx) (p : Nat) : List ViewTx :=
  ((filteredTx f txs).drop (p * TX_PER_PAGE)).take TX_PER_PAGE

/-- Embedding of the page count of `tabTransaktionen` (app.js line 386):
`Math.ceil(filtered.length / TX_PER_PAGE)`, which on naturals is
`(len + 29) / 30`. -/
def totalPagesTx (f : String) (txs : List ViewTx) : Nat :=
  ((filteredTx f txs).length + (TX_PER_PAGE - 1)) / TX_PER_PAGE

/-- Demo transaction list used by the C8 witness. -/
def demoTxs : List ViewTx :=
  [⟨"2024-01-01", "PURCHASE", 100⟩, ⟨"2024-01-02", "SALE", 50⟩]

/- ────────────────────────────────────────────────────────────────
   Definitions: finance transaction table (app.js lines 534-554)
   ──────────────────────────────────────────────────────────────── -/

/-- Finance transaction as consumed by `getFilteredFinTx` (app.js lines
534-554).  String fields that may be `null` in JavaScript are modelled as
plain strings, with absence represented by `""` (the code coalesces them
with `|| ""` before use). -/
structure FinTx where
  datum : String
  titel : String
  empfaenger : String
  detail_beschrieb : String
  kategorie : String
  art : String
  konto : String
  betrag : ℚ
  deriving DecidableEq, Repr

/-- State of the `finFilter` global (app.js line 14). -/
structure FinFilter where
  search : String
  kategorie : String
  art : String
  konto : String
  startDatum : String
  endDatum : String
  deriving Repr

/-- Sortable columns of the finance table (app.js lines 566-571). -/
inductive FinField where
  | datum | empfaenger | kategorie | art | betrag | konto
  deriving DecidableEq, Repr

/-- State of the `finSort` global (app.js line 15): sort field and
direction (`desc = true` models `dir === "desc"`). -/
structure FinSort where
  field : FinField
  desc : Bool
  deriving Repr

/-- Lower-cased character data of a string, modelling
`s.toLowerCase()` before the substring test. -/
def lowerData (s : String) : List Char := s.toLower.data

/-- Character-list test of whether the first list starts the second one. -/
def startsWithL : List Char → List Char → Bool
  | [], _ => true
  | _ :: _, [] => false
  | a :: pa, b :: sb => a == b && startsWithL pa sb

/-- Character-list substring test, modelling JavaScript
`String.prototype.includes`. -/
def containsL (pat : List Char) : List Char → Bool
  | [] => pat.isEmpty
  | c :: rest => startsWithL pat (c :: rest) || containsL pat rest

/-- Embedding of the search clause of `getFilteredFinTx` (app.js line 538):
case-insensitive substring match over titel, empfaenger, detail_beschrieb
and kategorie. -/
def searchHit (s : String) (t : FinTx) : Bool :=
  containsL (lowerData s) (lowerData t.titel)
  || containsL (lowerData s) (lowerData t.empfaenger)
  || containsL (lowerData s) (lowerData t.detail_beschrieb)
  || containsL (lowerData s) (lowerData t.kategorie)

/-- Embedding of the sequential filter stages of `getFilteredFinTx`
(app.js lines 536-544): each stage applies only when its filter string is
truthy (non-empty). -/
def applyFinFilters (f : FinFilter) (txs0 : List FinTx) : List FinTx :=
  let txs1 := if f.search = "" then txs0 else txs0.filter (fun t => searchHit f.search t)
  let txs2 := if f.kategorie = "" then txs1 else txs1.filter (fun t => t.kategorie == f.kategorie)
  let txs3 := if f.art = "" then txs2 else txs2.filter (fun t => t.art == f.art)
  let txs4 := if f.konto = "" then txs3 else txs3.filter (fun t => t.konto == f.konto)
  let txs5 := if f.startDatum = "" then txs4 else txs4.filter (fun t => decide (f.startDatum ≤ t.datum))
  if f.endDatum = "" then txs5 else txs5.filter (fun t => decide (t.datum ≤ f.endDatum))

/-- Conjunction of all active filter conditions, the specification the
sequential stages are proved equivalent to. -/
def matchesFin (f : FinFilter) (t : FinTx) : Bool :=
  ((f.search == "") || searchHit f.search t)
  && ((f.kategorie == "") || t.kategorie == f.kategorie)
  && ((f.art == "") || t.art == f.art)
  && ((f.konto == "") || t.konto == f.konto)
  && ((f.startDatum == "") || decide (f.startDatum ≤ t.datum))
  && ((f.endDatum == "") || decide (t.datum ≤ f.endDatum))

/-- String sort key of a column (the `a[field]` access of the comparator,
app.js line 549); `betrag` is the one numeric column and is handled
separately in `finLe`. -/
def finStrKey (fld : FinField) (t : FinTx) : String :=
  match fld with
  | .datum => t.datum
  | .empfaenger => t.empfaenger
  | .kategorie => t.kategorie
  | .art => t.art
  | .konto => t.konto
  | .betrag => ""

/-- Embedding of the comparator of `getFilteredFinTx` (app.js lines
546-552) as a boolean ordering: `finLe srt a b` holds exactly when the
comparator places `a` at or before `b` (numeric difference for `betrag`,
string comparison otherwise, direction reversed for descending sorts;
`localeCompare` is modelled by the lexicographic string order). -/
def finLe (srt : FinSort) (a b : FinTx) : Bool :=
  match srt.field, srt.desc with
  | .betrag, true => decide (b.betrag ≤ a.betrag)
  | .betrag, false => decide (a.betrag ≤ b.betrag)
  | fld, true => decide (finStrKey fld b ≤ finStrKey fld a)
  | fld, false => decide (finStrKey fld a ≤ finStrKey fld b)

/-- Embedding of `getFilteredFinTx` (app.js lines 534-554): the filtered
list is sorted with a stable sort.  The source sorts the spread copy
`[...txs]`, never the `financeTransactions` array itself; the purely
functional `mergeSort` models exactly that copy-then-sort. -/
def getFilteredFinTx (f : FinFilter) (srt : FinSort) (txs : List FinTx) : List FinTx :=
  (applyFinFilters f txs).mergeSort (finLe srt)

/- ────────────────────────────────────────────────────────────────
   Definitions: analytics engine (modelled from the spec)
   ──────────────────────────────────────────────────────────────── -/

/-- Modelled from the spec: the transaction type taxonomy of §4.1 (the
engine's ledger decoder is not under src/; only its German display labels
appear in app.js). -/
inductive TxType where
  | PURCHASE | SALE | INBOUND_DELIVERY | OUTBOUND_DELIVERY
  | SECURITY_TRANSFER | CASH_TRANSFER | DEPOSIT | REMOVAL
  | DIVIDEND | INTEREST | INTEREST_CHARGE | TAX | FEE | TAX_REFUND | FEE_REFUND
  deriving DecidableEq, Repr

/-- Modelled from the spec: a ledger transaction (§3), with date, type,
monetary amount, optional share count, and optional security/account
references.  `counterAccount` is the destination of an
account-to-account `CASH_TRANSFER`. -/
structure EngTx where
  date : Nat
  ttype : TxType
  amount : ℚ
  shares : ℚ
  security : Option String
  account : Option String
  counterAccount : Option String
  deriving DecidableEq, Repr

/-- Modelled from the spec: the external-cash-flow column of the §4.1
taxonomy table (deposits, removals and deliveries change contributed
capital). -/
def isExternal : TxType → Bool
  | .INBOUND_DELIVERY => true
  | .OUTBOUND_DELIVERY => true
  | .DEPOSIT => true
  | .REMOVAL => true
  | _ => false

/-- Modelled from the spec: the signed external-cash-flow amount of a
transaction (positive for capital added, negative for capital removed). -/
def signedExtFlow (t : EngTx) : ℚ :=
  match t.ttype with
  | .DEPOSIT => t.amount
  | .INBOUND_DELIVERY => t.amount
  | .REMOVAL => -t.amount
  | .OUTBOUND_DELIVERY => -t.amount
  | _ => 0

/-- Modelled from the spec: the cash-effect column of the §4.1 taxonomy
table, aggregated over all accounts (transfers and deliveries are
cash-neutral in aggregate). -/
def cashDelta (t : EngTx) : ℚ :=
  match t.ttype with
  | .PURCHASE => -t.amount
  | .SALE => t.amount
  | .DEPOSIT => t.amount
  | .REMOVAL => -t.amount
  | .DIVIDEND => t.amount
  | .INTEREST => t.amount
  | .INTEREST_CHARGE => -t.amount
  | .TAX => -t.amount
  | .FEE => -t.amount
  | .TAX_REFUND => t.amount
  | .FEE_REFUND => t.amount
  | _ => 0

/-- Modelled from the spec: the shares-effect column of the §4.1 taxonomy
table for one security. -/
def sharesDelta (isin : String) (t : EngTx) : ℚ :=
  if t.security = some isin then
    match t.ttype with
    | .PURCHASE => t.shares
    | .INBOUND_DELIVERY => t.shares
    | .SALE => -t.shares
    | .OUTBOUND_DELIVERY => -t.shares
    | _ => 0
  else 0

/-- Modelled from the spec: the ledger projector (§4.1) replays the
transactions up to a date chronologically; a sale exceeding held shares
floors the position at zero. -/
def sharesAt (txs : List EngTx) (isin : String) (d : Nat) : ℚ :=
  (txs.filter (fun t => decide (t.date ≤ d))).foldl
    (fun pos t => max 0 (pos + sharesDelta isin t)) 0

/-- Modelled from the spec: total portfolio value at a date (§4.2):
projected shares times the price from the security master's price
history, plus the aggregated cash balance.  The security master is a list
of (ISIN, price history). -/
def valueAt (master : List (String × (Nat → ℚ))) (txs : List EngTx) (d : Nat) : ℚ :=
  (master.map (fun s => sharesAt txs s.1 d * s.2 d)).sum
  + ((txs.filter (fun t => decide (t.date ≤ d))).map cashDelta).sum

/-- Modelled from the spec: net external cash flow dated `d` (§4.3). -/
def extFlowAt (txs : List EngTx) (d : Nat) : ℚ :=
  ((txs.filter (fun t => decide (t.date = d))).map signedExtFlow).sum

/-- Modelled from the spec: a date is an external-cash-flow date when some
external transaction is dated there (§4.3: every such date closes one
TTWROR sub-period and opens the next). -/
def isFlowDate (txs : List EngTx) (d : Nat) : Bool :=
  txs.any (fun t => decide (t.date = d) && isExternal t.ttype)

/-- Interior boundary selection: keeps the flow dates among the interior
valuation dates and always keeps the final date. -/
def middleB (flow : Nat → Bool) : List Nat → List Nat
  | [] => []
  | [a] => [a]
  | a :: b :: rest => if flow a then a :: middleB flow (b :: rest) else middleB flow (b :: rest)

/-- Modelled from the spec: the TTWROR sub-period boundaries (§4.3) over a
chronological valuation-date grid: the first date, every interior
external-cash-flow date, and the last date. -/
def boundaryDates (flow : Nat → Bool) : List Nat → List Nat
  | [] => []
  | a :: rest => a :: middleB flow rest

/-- Modelled from the spec: geometric linking of sub-period growth factors
(§4.3, end-of-period cash-flow convention): for consecutive boundaries
`a`, `b` the factor is `(V(b) − CF(b)) / V(a)`. -/
def linkFactors (V CF : Nat → ℚ) : List Nat → ℚ
  | [] => 1
  | [_] => 1
  | a :: b :: rest => ((V b - CF b) / V a) * linkFactors V CF (b :: rest)

/-- Modelled from the spec: the time-weighted rate of return (§4.3),
`∏(1 + rᵢ) − 1` over the sub-periods delimited by external-cash-flow
dates. -/
def ttwror (master : List (String × (Nat → ℚ))) (txs : List EngTx) (grid : List Nat) : ℚ :=
  linkFactors (valueAt master txs) (extFlowAt txs) (boundaryDates (isFlowDate txs) grid) - 1

/-- A DEPOSIT transaction of the given amount on the given date. -/
def depositTx (d : Nat) (x : ℚ) (acct : Option String) : EngTx :=
  ⟨d, .DEPOSIT, x, 0, none, acct, none⟩

/-- A REMOVAL transaction of the given amount on the given date. -/
def removalTx (d : Nat) (x : ℚ) (acct : Option String) : EngTx :=
  ⟨d, .REMOVAL, x, 0, none, acct, none⟩

/- ────────────────────────────────────────────────────────────────
   Definitions: valuation, view assembly and recompute
   ──────────────────────────────────────────────────────────────── -/

/-- Modelled from the spec: a derived holding projection (§3): shares
owned, current value in base currency and invested cost basis. -/
structure Holding where
  isin : String
  shares : ℚ
  current_value : ℚ
  invested : ℚ
  deriving DecidableEq, Repr

/-- Modelled from the spec: an account (§3) with derived cash balance. -/
structure Account where
  name : String
  currency : String
  balance : ℚ
  deriving DecidableEq, Repr

/-- Modelled from the spec: base-currency conversion of an account balance
(§4.2): with no FX rate available the conversion fails closed and the
balance is excluded from value aggregates (contributes 0). -/
def convertBalance (fx : String → Option ℚ) (a : Account) : ℚ :=
  match fx a.currency with
  | some r => a.balance * r
  | none => 0

/-- Modelled from the spec: the client view object (§6) restricted to the
aggregate fields the invariants speak about. -/
structure ClientView where
  holdings : List Holding
  accounts : List Account
  total_value : ℚ
  total_invested : ℚ
  gain_loss : ℚ
  deriving Repr

/-- Modelled from the spec: the output assembler (§2, §3 invariants, §6)
computes `total_value` as the sum of all holding current values plus all
positive account balances converted to base currency, and `total_invested`
as the sum of the holdings' invested amounts. -/
def mkClientView (holdings : List Holding) (accounts : List Account)
    (fx : String → Option ℚ) : ClientView :=
  { holdings := holdings
    accounts := accounts
    total_value := (holdings.map (fun h => h.current_value)).sum
      + ((accounts.filter (fun a => decide (0 < a.balance))).map (convertBalance fx)).sum
    total_invested := (holdings.map (fun h => h.invested)).sum
    gain_loss := ((holdings.map (fun h => h.current_value)).sum
      + ((accounts.filter (fun a => decide (0 < a.balance))).map (convertBalance fx)).sum)
      - (holdings.map (fun h => h.invested)).sum }

/-- Modelled from the spec: invested cost-basis delta of one transaction
for one security.  The spec leaves the cost-basis method open (§4.1); the
model fixes simple net cumulative cost, which the invariants proved here
do not depend on. -/
def investedDelta (isin : String) (t : EngTx) : ℚ :=
  if t.security = some isin then
    match t.ttype with
    | .PURCHASE => t.amount
    | .INBOUND_DELIVERY => t.amount
    | .SALE => -t.amount
    | .OUTBOUND_DELIVERY => -t.amount
    | _ => 0
  else 0

/-- Invested cost basis of one security up to a date. -/
def investedOf (txs : List EngTx) (isin : String) (d : Nat) : ℚ :=
  ((txs.filter (fun t => decide (t.date ≤ d))).map (investedDelta isin)).sum

/-- Modelled from the spec: holdings derived from the projector and the
security master at a valuation date (§4.1, §4.2). -/
def holdingsOf (master : List (String × (Nat → ℚ))) (txs : List EngTx) (d : Nat) : List Holding :=
  master.map (fun s =>
    { isin := s.1
      shares := sharesAt txs s.1 d
      current_value := sharesAt txs s.1 d * s.2 d
      invested := investedOf txs s.1 d })

/-- Modelled from the spec: per-account cash effect of one transaction
(§4.1), with `CASH_TRANSFER` moving the amount between the transaction's
account and counter account. -/
def acctCashDelta (name : String) (t : EngTx) : ℚ :=
  match t.ttype with
  | .CASH_TRANSFER =>
    (if t.account = some name then -t.amount else 0)
      + (if t.counterAccount = some name then t.amount else 0)
  | _ => if t.account = some name then cashDelta t else 0

/-- Derived cash balance of one account up to a date (§3: the balance is
the running sum of cash-affecting transactions, never stored). -/
def balanceOf (txs : List EngTx) (name : String) (d : Nat) : ℚ :=
  ((txs.filter (fun t => decide (t.date ≤ d))).map (acctCashDelta name)).sum

/-- Accounts derived from the ledger for a given (name, currency) roster. -/
def accountsOf (names : List (String × String)) (txs : List EngTx) (d : Nat) : List Account :=
  names.map (fun nc => { name := nc.1, currency := nc.2, balance := balanceOf txs nc.1 d })

/-- Last valuation date of a grid. -/
def lastDate (grid : List Nat) : Nat := grid.foldl max 0

/-- Modelled from the spec: one recompute cycle (§3 lifecycle, §5): the
result set is rebuilt from scratch from the immutable inputs and
atomically replaces the cached view; the previous cache is never read or
incrementally patched. -/
def recompute (master : List (String × (Nat → ℚ))) (txs : List EngTx) (grid : List Nat)
    (names : List (String × String)) (fx : String → Option ℚ)
    (_cache : Option ClientView) : Option ClientView :=
  some (mkClientView (holdingsOf master txs (lastDate grid))
    (accountsOf names txs (lastDate grid)) fx)

/- ────────────────────────────────────────────────────────────────
   Definitions: risk metrics (modelled from the spec)
   ──────────────────────────────────────────────────────────────── -/

/-- All ordered peak/trough candidate pairs of a value history: every pair
of points whose first component occurs strictly earlier in the list. -/
def ddPairs : List (Nat × ℚ) → List ((Nat × ℚ) × (Nat × ℚ))
  | [] => []
  | p :: rest => rest.map (fun q => (p, q)) ++ ddPairs rest

/-- Peak-to-trough percentage decline of one candidate pair (§4.3,
Glossary: decline expressed as a percentage of the peak). -/
def declinePct (pq : (Nat × ℚ) × (Nat × ℚ)) : ℚ :=
  (pq.1.2 - pq.2.2) / pq.1.2 * 100

/-- First maximizer of a rational score over a list (later elements
replace the incumbent only on a strictly larger score). -/
def pickMax {α : Type} (f : α → ℚ) : List α → Option α
  | [] => none
  | x :: rest =>
    match pickMax f rest with
    | none => some x
    | some b => if f x < f b then some b else some x

/-- Modelled from the spec: the scan of §4.3 for the peak/trough pair
producing the global maximum decline.  `none` only for histories with
fewer than two points, which admit no peak-to-trough pair. -/
def maxDrawdownPair (h : List (Nat × ℚ)) : Option ((Nat × ℚ) × (Nat × ℚ)) :=
  pickMax declinePct (ddPairs h)

/-- Modelled from the spec: the reported max drawdown (§4.3): the global
maximum peak-to-trough percentage decline, reported as a positive
percentage (a history that never declines reports 0). -/
def max_drawdown (h : List (Nat × ℚ)) : ℚ :=
  match maxDrawdownPair h with
  | none => 0
  | some pq => max 0 (declinePct pq)

/-- Peak date of the maximum drawdown. -/
def max_drawdown_start (h : List (Nat × ℚ)) : Option Nat :=
  (maxDrawdownPair h).map (fun pq => pq.1.1)

/-- Trough date of the maximum drawdown. -/
def max_drawdown_end (h : List (Nat × ℚ)) : Option Nat :=
  (maxDrawdownPair h).map (fun pq => pq.2.1)

/-- Mean of a monthly return series. -/
def meanQ (l : List ℚ) : ℚ := l.sum / l.length

/-- Population variance of a monthly return series. -/
def varianceQ (l : List ℚ) : ℚ :=
  ((l.map (fun r => (r - meanQ l) ^ 2)).sum) / l.length

/-- Standard deviation of a monthly return series (the series carries
percentage values, so the deviation is already a percentage). -/
noncomputable def stdevMonthly (l : List ℚ) : ℝ :=
  Real.sqrt ((varianceQ l : ℝ))

/-- Modelled from the spec: reported volatility (§4.3): the standard
deviation of the monthly return series annualized by `√12`, expressed as
a percentage; with fewer than 2 monthly observations it reports 0. -/
noncomputable def volatility (l : List ℚ) : ℝ :=
  if l.length < 2 then 0 else stdevMonthly l * Real.sqrt 12

/- ────────────────────────────────────────────────────────────────
   Lemmas: lookup table
   ──────────────────────────────────────────────────────────────── -/

lemma lookup_eq_none_of_not_mem_keys (l : List (String × String)) (t : String)
    (h : t ∉ l.map Prod.fst) : l.lookup t = none := by
  induction l with
  | nil => rfl
  | cons p rest ih =>
    simp only [List.map_cons, List.mem_cons, not_or] at h
    have hk : (t == p.1) = false := by
      simp [beq_eq_false_iff_ne, h.1]
    cases p with
    | mk k v =>
      simp only [List.lookup_cons]
      simp only at hk
      rw [hk]
      exact ih h.2

lemma lookup_some_exists_mem (l : List (String × String)) (t v : String)
    (h : l.lookup t = some v) : ∃ k, (k, v) ∈ l := by
  induction l with
  | nil => simp [List.lookup] at h
  | cons p rest ih =>
    cases p with
    | mk k w =>
      simp only [List.lookup_cons] at h
      cases hk : (t == k) with
      | true =>
        rw [hk] at h
        simp only [Option.some.injEq] at h
        exact ⟨k, by rw [← h]; exact List.mem_cons_self _ _⟩
      | false =>
        rw [hk] at h
        simp only at h
        obtain ⟨k', hk'⟩ := ih h
        exact ⟨k', List.mem_cons_of_mem _ hk'⟩

/- ────────────────────────────────────────────────────────────────
   Claim C5: division guarded by invested > 0
   ──────────────────────────────────────────────────────────────── -/

/-- C5: the Dividenden-Rendite of `tabDividenden` divides `d.total` by
`c.total_invested` only under the guard `total_invested > 0`; at zero (or
any non-positive) invested amount the reported percentage is exactly `0`,
so no division by zero occurs. -/
theorem dividendenRendite_safe (total invested : ℚ) :
    (invested = 0 → dividendenRendite total invested = 0)
    ∧ (invested ≤ 0 → dividendenRendite total invested = 0)
    ∧ (0 < invested → dividendenRendite total invested = total / invested * 100) := by
  refine ⟨fun h => ?_, fun h => ?_, fun h => ?_⟩
  · simp [dividendenRendite, h]
  · rw [dividendenRendite, if_neg (not_lt.mpr h)]
  · rw [dividendenRendite, if_pos h]

/-- Witness for C5: concrete evaluations of the guarded percentage. -/
theorem dividendenRendite_witness :
    dividendenRendite 5 0 = 0 ∧ dividendenRendite 50 200 = 50 / 200 * 100 :=
  ⟨(dividendenRendite_safe 5 0).1 rfl,
   (dividendenRendite_safe 50 200).2.2 (by norm_num)⟩

/- ────────────────────────────────────────────────────────────────
   Claim C7: txLabel lookup with fallback
   ──────────────────────────────────────────────────────────────── -/

/-- Counterexample to C7 as stated: `"toString"` is not one of the 15
taxonomy types, yet `txLabel` does not return it unchanged — the object
literal's prototype chain is consulted before the `|| t` fallback, so the
lookup returns the inherited truthy `Object.prototype.toString` member
instead of the input string. -/
theorem txLabel_fallback_counterexample :
    "toString" ∉ txLabelMap.map Prod.fst
    ∧ txLabel "toString" ≠ JsVal.label "toString"
    ∧ txLabel "toString" = JsVal.protoMember "toString" := by
  refine ⟨by decide, by decide, by decide⟩

/-- C7 (amended): `txLabel` maps each of the 15 transaction types of the
§4.1 taxonomy (whose key set is enumerated exactly, PURCHASE through
FEE_REFUND) to its German label from the map; for any other string that
is not the name of an inherited `Object.prototype` member it returns the
input itself; for an inherited member name the lookup returns the truthy
inherited member, not the input.  For non-empty input the result is never
an empty label. -/
theorem txLabel_spec (t : String) :
    (∀ p ∈ txLabelMap, txLabel p.1 = JsVal.label p.2)
    ∧ txLabelMap.map Prod.fst
      = ["PURCHASE", "SALE", "INBOUND_DELIVERY", "OUTBOUND_DELIVERY",
         "SECURITY_TRANSFER", "CASH_TRANSFER", "DEPOSIT", "REMOVAL",
         "DIVIDEND", "INTEREST", "INTEREST_CHARGE", "TAX",
         "TAX_REFUND", "FEE", "FEE_REFUND"]
    ∧ txLabelMap.length = 15
    ∧ (t ∉ txLabelMap.map Prod.fst → t ∉ protoKeys → txLabel t = JsVal.label t)
    ∧ (t ∉ txLabelMap.map Prod.fst → t ∈ protoKeys → txLabel t = JsVal.protoMember t)
    ∧ (t ≠ "" → txLabel t ≠ JsVal.label "") := by
  refine ⟨by decide, by decide, by decide, fun h hp => ?_, fun h hp => ?_, fun h => ?_⟩
  · rw [txLabel, lookup_eq_none_of_not_mem_keys _ _ h]
    simp [hp]
  · rw [txLabel, lookup_eq_none_of_not_mem_keys _ _ h]
    simp [hp]
  · cases hl : txLabelMap.lookup t with
    | none =>
      rw [txLabel, hl]
      by_cases hp : t ∈ protoKeys
      · simp [hp]
      · simpa [hp] using h
    | some v =>
      obtain ⟨k, hk⟩ := lookup_some_exists_mem _ _ _ hl
      have hv : v ≠ "" := by
        have hall : ∀ p ∈ txLabelMap, p.2 ≠ "" := by decide
        exact hall (k, v) hk
      rw [txLabel, hl]
      simpa using hv

/-- Witness for C7: an enumerated label, the genuine fallback at the
unknown type `"FOO"`, and the prototype-chain branch at `"toString"`. -/
theorem txLabel_witness :
    txLabel "PURCHASE" = JsVal.label "Kauf"
    ∧ txLabel "FOO" = JsVal.label "FOO"
    ∧ txLabel "toString" = JsVal.protoMember "toString" :=
  ⟨(txLabel_spec "PURCHASE").1 ("PURCHASE", "Kauf") (by decide),
   (txLabel_spec "FOO").2.2.2.1 (by decide) (by decide),
   (txLabel_spec "toString").2.2.2.2.1 (by decide) (by decide)⟩

/- ────────────────────────────────────────────────────────────────
   Claim C10: esc escapes HTML-significant characters
   ──────────────────────────────────────────────────────────────── -/

lemma unescCore_cons_ne (c : Char) (rest : List Char) (h : c ≠ '&') :
    unescCore (c :: rest) = c :: unescCore rest := by
  rw [unescCore.eq_def]
  split
  all_goals simp_all

lemma unescCore_escCore (l : List Char) : unescCore (escCore l) = l := by
  induction l with
  | nil => rfl
  | cons c rest ih =>
    by_cases h1 : c = '&'
    · subst h1
      show unescCore ('&' :: 'a' :: 'm' :: 'p' :: ';' :: escCore rest) = _
      rw [show unescCore ('&' :: 'a' :: 'm' :: 'p' :: ';' :: escCore rest)
            = '&' :: unescCore (escCore rest) from rfl, ih]
    · by_cases h2 : c = '<'
      · subst h2
        show unescCore ('&' :: 'l' :: 't' :: ';' :: escCore rest) = _
        rw [show unescCore ('&' :: 'l' :: 't' :: ';' :: escCore rest)
              = '<' :: unescCore (escCore rest) from rfl, ih]
      · by_cases h3 : c = '>'
        · subst h3
          show unescCore ('&' :: 'g' :: 't' :: ';' :: escCore rest) = _
          rw [show unescCore ('&' :: 'g' :: 't' :: ';' :: escCore rest)
                = '>' :: unescCore (escCore rest) from rfl, ih]
        · show unescCore (escChar c ++ escCore rest) = _
          rw [show escChar c = [c] by simp [escChar, h1, h2, h3]]
          rw [List.singleton_append, unescCore_cons_ne c _ h1, ih]

lemma escCore_no_angle (l : List Char) :
    '<' ∉ escCore l ∧ '>' ∉ escCore l := by
  induction l with
  | nil => simp [escCore]
  | cons c rest ih =>
    have hc : '<' ∉ escChar c ∧ '>' ∉ escChar c := by
      by_cases h1 : c = '&'
      · subst h1; decide
      · by_cases h2 : c = '<'
        · subst h2; decide
        · by_cases h3 : c = '>'
          · subst h3; decide
          · simp [escChar, h1, h2, h3]
            exact ⟨fun h => h2 h.symm, fun h => h3 h.symm⟩
    simp only [escCore, List.mem_append, not_or]
    exact ⟨⟨hc.1, ih.1⟩, ⟨hc.2, ih.2⟩⟩

/-- C10: `esc` maps every falsy input (absent string or empty string) to
`""`; on any other string it performs the DOM entity expansion of `&`,
`<` and `>`, which is lossless (parsing the entities back recovers the
input exactly) and whose output contains no `<` or `>` character, so a
string interpolated through `esc` into `innerHTML` can never introduce
new markup. -/
theorem esc_spec (s : String) :
    esc none = "" ∧ esc (some "") = ""
    ∧ '<' ∉ (esc (some s)).data ∧ '>' ∉ (esc (some s)).data
    ∧ unescCore (esc (some s)).data = s.data
    ∧ (s ≠ "" → esc (some s) = ⟨escCore s.data⟩) := by
  refine ⟨rfl, rfl, ?_, ?_, ?_, fun h => by simp [esc, h]⟩
  · by_cases h : s = ""
    · simp [esc, h]
    · simpa [esc, h] using (escCore_no_angle s.data).1
  · by_cases h : s = ""
    · simp [esc, h]
    · simpa [esc, h] using (escCore_no_angle s.data).2
  · by_cases h : s = ""
    · simp [esc, h, unescCore]
    · simpa [esc, h] using unescCore_escCore s.data

/-- Witness for C10: concrete escape of a markup-significant string. -/
theorem esc_witness :
    unescCore (esc (some "a<b&c")).data = "a<b&c".data
    ∧ esc (some "a<b&c") = ⟨escCore "a<b&c".data⟩ :=
  ⟨(esc_spec "a<b&c").2.2.2.2.1,
   (esc_spec "a<b&c").2.2.2.2.2 (by decide)⟩

/- ────────────────────────────────────────────────────────────────
   Claim C8: Transaktionen tab filtering and pagination
   ──────────────────────────────────────────────────────────────── -/

lemma flatMap_congr_mem {α β : Type} (l : List α) (f g : α → List β)
    (h : ∀ x ∈ l, f x = g x) : l.flatMap f = l.flatMap g := by
  induction l with
  | nil => rfl
  | cons a tl ih =>
    simp only [List.flatMap_cons]
    rw [h a (by simp), ih (fun x hx => h x (by simp [hx]))]

lemma chunk_join_aux {α : Type} (n : Nat) : ∀ (l : List α), l.length ≤ n →
    (List.range ((l.length + 29) / 30)).flatMap (fun p => (l.drop (p * 30)).take 30) = l := by
  induction n with
  | zero =>
    intro l hl
    have : l = [] := List.eq_nil_of_length_eq_zero (Nat.le_zero.mp hl)
    subst this
    simp
  | succ n ih =>
    intro l hl
    by_cases hsmall : l.length ≤ 30
    · by_cases hz : l.length = 0
      · have : l = [] := List.eq_nil_of_length_eq_zero hz
        subst this
        simp
      · have hp : (l.length + 29) / 30 = 1 := by omega
        rw [hp, show List.range 1 = [0] from rfl]
        simp [List.take_of_length_le hsmall]
    · push_neg at hsmall
      have hlen : (l.length + 29) / 30 = ((l.drop 30).length + 29) / 30 + 1 := by
        simp only [List.length_drop]
        omega
      rw [hlen, List.range_succ_eq_map, List.flatMap_cons, List.flatMap_map]
      have htail : (List.range (((l.drop 30).length + 29) / 30)).flatMap
            (fun a => (l.drop (Nat.succ a * 30)).take 30)
          = (List.range (((l.drop 30).length + 29) / 30)).flatMap
              (fun p => ((l.drop 30).drop (p * 30)).take 30) := by
        apply flatMap_congr_mem
        intro p _
        rw [List.drop_drop, Nat.succ_mul, Nat.add_comm (p * 30) 30]
      rw [htail, ih (l.drop 30) (by simp only [List.length_drop]; omega)]
      simp

lemma nat_ceil_div_30 (n : Nat) : (((n + 29) / 30 : Nat) : ℤ) = ⌈(n : ℚ) / 30⌉ := by
  have h1 : 30 * ((n + 29) / 30) ≤ n + 29 := by omega
  have h2 : n ≤ 30 * ((n + 29) / 30) := by omega
  symm
  rw [Int.ceil_eq_iff, Int.cast_natCast]
  constructor
  · rw [sub_lt_iff_lt_add, div_add' _ _ _ (by norm_num : (30:ℚ) ≠ 0),
      lt_div_iff₀ (by norm_num : (0:ℚ) < 30)]
    have h1q : (30 : ℚ) * (((n + 29) / 30 : Nat) : ℚ) ≤ (n : ℚ) + 29 := by
      exact_mod_cast h1
    linarith
  · rw [div_le_iff₀ (by norm_num : (0:ℚ) < 30)]
    have h2q : (n : ℚ) ≤ 30 * (((n + 29) / 30 : Nat) : ℚ) := by exact_mod_cast h2
    linarith

/-- C8: the Transaktionen tab shows on page `p` exactly the slice
`filtered.slice(30 * p, 30 * (p + 1))`; the page count is
`ceil(filtered.length / 30)`; concatenating all pages reproduces the
filtered list exactly (so every filtered transaction appears on exactly
one page); and with a filter other than `"ALL"` every displayed
transaction has the selected type. -/
theorem tabTransaktionen_pages (f : String) (txs : List ViewTx) (p : Nat) :
    pagedTx f txs p = ((filteredTx f txs).drop (TX_PER_PAGE * p)).take TX_PER_PAGE
    ∧ ((totalPagesTx f txs : ℤ) = ⌈((filteredTx f txs).length : ℚ) / (TX_PER_PAGE : ℚ)⌉)
    ∧ (List.range (totalPagesTx f txs)).flatMap (pagedTx f txs) = filteredTx f txs
    ∧ (f ≠ "ALL" → ∀ t ∈ pagedTx f txs p, t.ttype = f) := by
  refine ⟨by rw [pagedTx, Nat.mul_comm], ?_, ?_, fun hf t ht => ?_⟩
  · exact nat_ceil_div_30 (filteredTx f txs).length
  · exact chunk_join_aux (filteredTx f txs).length (filteredTx f txs) le_rfl
  · have hmem : t ∈ filteredTx f txs :=
      List.mem_of_mem_drop (List.mem_of_mem_take ht)
    rw [filteredTx, if_neg hf] at hmem
    exact eq_of_beq (List.mem_filter.mp hmem).2

/-- Witness for C8: on the demo list with filter `"PURCHASE"` the single
displayed transaction has the selected type. -/
theorem tabTransaktionen_witness :
    (⟨"2024-01-01", "PURCHASE", 100⟩ : ViewTx).ttype = "PURCHASE" :=
  (tabTransaktionen_pages "PURCHASE" demoTxs 0).2.2.2 (by decide)
    ⟨"2024-01-01", "PURCHASE", 100⟩ (by decide)

/- ────────────────────────────────────────────────────────────────
   Claim C9: finance transaction filtering and sorting
   ──────────────────────────────────────────────────────────────── -/

lemma stageEq (c : String) (p : FinTx → Bool) (l : List FinTx) :
    (if c = "" then l else l.filter p) = l.filter (fun t => (c == "") || p t) := by
  by_cases h : c = ""
  · have hb : (c == "") = true := by simp [h]
    simp [h, hb]
  · have hb : (c == "") = false := beq_eq_false_iff_ne.mpr h
    simp [h, hb]

lemma applyFinFilters_eq (f : FinFilter) (txs : List FinTx) :
    applyFinFilters f txs = txs.filter (matchesFin f) := by
  show (if f.endDatum = "" then _ else _) = _
  rw [stageEq, stageEq, stageEq, stageEq, stageEq, stageEq,
    List.filter_filter, List.filter_filter, List.filter_filter,
    List.filter_filter, List.filter_filter]
  apply List.filter_congr
  intro t _
  show _ = matchesFin f t
  simp only [matchesFin]
  generalize ((f.search == "") || searchHit f.search t) = b1
  generalize ((f.kategorie == "") || (t.kategorie == f.kategorie)) = b2
  generalize ((f.art == "") || (t.art == f.art)) = b3
  generalize ((f.konto == "") || (t.konto == f.konto)) = b4
  generalize ((f.startDatum == "") || decide (f.startDatum ≤ t.datum)) = b5
  generalize ((f.endDatum == "") || decide (t.datum ≤ f.endDatum)) = b6
  cases b1 <;> cases b2 <;> cases b3 <;> cases b4 <;> cases b5 <;> cases b6 <;> rfl

lemma finLe_trans (srt : FinSort) (a b c : FinTx)
    (hab : finLe srt a b = true) (hbc : finLe srt b c = true) : finLe srt a c = true := by
  cases hf : srt.field <;> cases hd : srt.desc <;>
    simp [finLe, hf, hd] at hab hbc ⊢ <;>
    first
      | exact le_trans hab hbc
      | exact le_trans hbc hab

lemma finLe_total (srt : FinSort) (a b : FinTx) :
    (finLe srt a b || finLe srt b a) = true := by
  cases hf : srt.field <;> cases hd : srt.desc <;>
    simp [finLe, hf, hd] <;>
    exact le_total _ _

/-- C9: `getFilteredFinTx` returns exactly the transactions satisfying
every active filter (as a permutation of, and with the same members as,
the conjunctive filter over the input list) and its output is sorted by
the selected field in the selected direction.  It operates on a sorted
copy, leaving the input list untouched: the embedding is a pure function
of `txs`. -/
theorem getFilteredFinTx_spec (f : FinFilter) (srt : FinSort) (txs : List FinTx) :
    (getFilteredFinTx f srt txs).Perm (txs.filter (matchesFin f))
    ∧ (∀ t, t ∈ getFilteredFinTx f srt txs ↔ t ∈ txs ∧ matchesFin f t = true)
    ∧ (getFilteredFinTx f srt txs).Pairwise (fun a b => finLe srt a b = true) := by
  have hperm : (getFilteredFinTx f srt txs).Perm (txs.filter (matchesFin f)) := by
    rw [getFilteredFinTx, applyFinFilters_eq]
    exact List.mergeSort_perm _ _
  refine ⟨hperm, fun t => ?_, ?_⟩
  · rw [hperm.mem_iff, List.mem_filter]
  · rw [getFilteredFinTx]
    exact List.sorted_mergeSort (fun a b c => finLe_trans srt a b c)
      (fun a b => finLe_total srt a b) _

/- ────────────────────────────────────────────────────────────────
   Claim C1: the total-value invariant of the client view
   ──────────────────────────────────────────────────────────────── -/

/-- C1: for every assembled client view, the sum of the holdings' current
values plus the sum of the positive converted account balances equals the
view's `total_value` — exactly in the rational model, hence within the
1e-6 relative tolerance the spec allows for floating point. -/
theorem totalValue_invariant (holdings : List Holding) (accounts : List Account)
    (fx : String → Option ℚ) :
    |(((mkClientView holdings accounts fx).holdings.map (fun h => h.current_value)).sum
        + (((mkClientView holdings accounts fx).accounts.filter
            (fun a => decide (0 < a.balance))).map (convertBalance fx)).sum)
      - (mkClientView holdings accounts fx).total_value|
      ≤ (1 / 1000000) * |(mkClientView holdings accounts fx).total_value| := by
  have hz : (((mkClientView holdings accounts fx).holdings.map
        (fun h => h.current_value)).sum
      + (((mkClientView holdings accounts fx).accounts.filter
          (fun a => decide (0 < a.balance))).map (convertBalance fx)).sum)
      - (mkClientView holdings accounts fx).total_value = 0 := by
    simp [mkClientView]
  rw [hz, abs_zero]
  positivity

/- ────────────────────────────────────────────────────────────────
   Claim C6: recompute is a deterministic, idempotent function
   ──────────────────────────────────────────────────────────────── -/

/-- C6: a recompute cycle is a pure function of the ledger snapshot,
security master, account roster, FX snapshot and valuation grid: running
it twice produces identical output (idempotence over the cached state),
and its result does not depend on the previously cached view at all. -/
theorem recompute_deterministic (master : List (String × (Nat → ℚ))) (txs : List EngTx)
    (grid : List Nat) (names : List (String × String)) (fx : String → Option ℚ)
    (c c₁ c₂ : Option ClientView) :
    recompute master txs grid names fx (recompute master txs grid names fx c)
      = recompute master txs grid names fx c
    ∧ recompute master txs grid names fx c₁ = recompute master txs grid names fx c₂ :=
  ⟨rfl, rfl⟩

/- ────────────────────────────────────────────────────────────────
   Claim C3: max drawdown
   ──────────────────────────────────────────────────────────────── -/

lemma pickMax_ne_none {α : Type} (f : α → ℚ) (x : α) (l : List α) :
    pickMax f (x :: l) ≠ none := by
  rw [pickMax]
  cases pickMax f l with
  | none => simp
  | some b =>
    by_cases h : f x < f b <;> simp [h]

lemma pickMax_mem {α : Type} (f : α → ℚ) :
    ∀ (l : List α) (b : α), pickMax f l = some b → b ∈ l := by
  intro l
  induction l with
  | nil => intro b h; simp [pickMax] at h
  | cons x rest ih =>
    intro b h
    rw [pickMax] at h
    cases hr : pickMax f rest with
    | none =>
      rw [hr] at h
      dsimp only at h
      simp only [Option.some.injEq] at h
      simp [← h]
    | some c =>
      rw [hr] at h
      dsimp only at h
      by_cases hc : f x < f c
      · rw [if_pos hc] at h
        simp only [Option.some.injEq] at h
        rw [← h]
        exact List.mem_cons_of_mem _ (ih c hr)
      · rw [if_neg hc] at h
        simp only [Option.some.injEq] at h
        simp [← h]

lemma pickMax_ge {α : Type} (f : α → ℚ) :
    ∀ (l : List α) (b : α), pickMax f l = some b → ∀ x ∈ l, f x ≤ f b := by
  intro l
  induction l with
  | nil => intro b h; simp [pickMax] at h
  | cons x rest ih =>
    intro b h y hy
    rw [pickMax] at h
    cases hr : pickMax f rest with
    | none =>
      have hrest : rest = [] := by
        cases rest with
        | nil => rfl
        | cons z zs => exact absurd hr (pickMax_ne_none f z zs)
      subst hrest
      rw [hr] at h
      dsimp only at h
      simp only [Option.some.injEq] at h
      simp only [List.mem_singleton] at hy
      subst hy
      rw [← h]
    | some c =>
      rw [hr] at h
      dsimp only at h
      rcases List.mem_cons.mp hy with hxy | hyr
      · subst hxy
        by_cases hc : f y < f c
        · rw [if_pos hc] at h
          simp only [Option.some.injEq] at h
          rw [← h]
          exact le_of_lt hc
        · rw [if_neg hc] at h
          simp only [Option.some.injEq] at h
          rw [← h]
      · by_cases hc : f x < f c
        · rw [if_pos hc] at h
          simp only [Option.some.injEq] at h
          rw [← h]
          exact ih c hr y hyr
        · rw [if_neg hc] at h
          simp only [Option.some.injEq] at h
          rw [← h]
          exact le_trans (ih c hr y hyr) (not_lt.mp hc)

lemma ddPairs_dates_lt (h : List (Nat × ℚ))
    (hs : h.Pairwise (fun a b => a.1 < b.1)) :
    ∀ pq ∈ ddPairs h, pq.1.1 < pq.2.1 := by
  induction h with
  | nil => intro pq hpq; simp [ddPairs] at hpq
  | cons p rest ih =>
    intro pq hpq
    rw [ddPairs, List.mem_append] at hpq
    rcases hpq with hl | hr
    · obtain ⟨q, hq, hpq'⟩ := List.mem_map.mp hl
      rw [← hpq']
      exact (List.pairwise_cons.mp hs).1 q hq
    · exact ih (List.pairwise_cons.mp hs).2 pq hr

/-- C3: for every value history with at least two points and strictly
increasing dates, the reported max drawdown is nonnegative, it bounds the
percentage decline of every peak/trough pair and is attained by one of
them whenever it is nonzero (the global maximum drop, clamped at 0 when
the history never declines), and the drawdown start date strictly
precedes the drawdown end date. -/
theorem maxDrawdown_spec (h : List (Nat × ℚ)) (hlen : 2 ≤ h.length)
    (hs : h.Pairwise (fun a b => a.1 < b.1)) :
    0 ≤ max_drawdown h
    ∧ (∀ pq ∈ ddPairs h, declinePct pq ≤ max_drawdown h)
    ∧ (max_drawdown h = 0 ∨ ∃ pq ∈ ddPairs h, declinePct pq = max_drawdown h)
    ∧ (∃ s e, max_drawdown_start h = some s ∧ max_drawdown_end h = some e ∧ s < e) := by
  match h, hlen with
  | p :: q :: rest, _ =>
    have hpairs : ddPairs (p :: q :: rest) = ((q :: rest).map (fun r => (p, r))) ++ ddPairs (q :: rest) := rfl
    cases hpm : maxDrawdownPair (p :: q :: rest) with
    | none =>
      exfalso
      rw [maxDrawdownPair, hpairs] at hpm
      exact pickMax_ne_none declinePct _ _ (by simpa using hpm)
    | some b =>
      have hb_mem : b ∈ ddPairs (p :: q :: rest) := pickMax_mem declinePct _ b hpm
      have hb_ge : ∀ x ∈ ddPairs (p :: q :: rest), declinePct x ≤ declinePct b :=
        pickMax_ge declinePct _ b hpm
      have hdd : max_drawdown (p :: q :: rest) = max 0 (declinePct b) := by
        rw [max_drawdown, hpm]
      refine ⟨by rw [hdd]; exact le_max_left _ _, fun pq hpq => ?_, ?_, ?_⟩
      · rw [hdd]
        exact le_trans (hb_ge pq hpq) (le_max_right _ _)
      · rcases le_or_lt (declinePct b) 0 with hle | hlt
        · left
          rw [hdd, max_eq_left hle]
        · right
          exact ⟨b, hb_mem, by rw [hdd, max_eq_right (le_of_lt hlt)]⟩
      · refine ⟨b.1.1, b.2.1, ?_, ?_, ?_⟩
        · rw [max_drawdown_start, hpm]; rfl
        · rw [max_drawdown_end, hpm]; rfl
        · exact ddPairs_dates_lt _ hs b hb_mem

/-- Witness for C3: the history 100 → 50 has drawdown data with the peak
date strictly before the trough date. -/
theorem maxDrawdown_witness :
    0 ≤ max_drawdown [(0, (100 : ℚ)), (1, 50)]
    ∧ (∃ s e, max_drawdown_start [(0, (100 : ℚ)), (1, 50)] = some s
        ∧ max_drawdown_end [(0, (100 : ℚ)), (1, 50)] = some e ∧ s < e) :=
  ⟨(maxDrawdown_spec [(0, 100), (1, 50)] (by decide) (by decide)).1,
   (maxDrawdown_spec [(0, 100), (1, 50)] (by decide) (by decide)).2.2.2⟩

/- ────────────────────────────────────────────────────────────────
   Claim C4: volatility
   ──────────────────────────────────────────────────────────────── -/

/-- C4: the reported volatility is the standard deviation of the monthly
return series multiplied by `√12` whenever at least 2 observations exist;
with fewer than 2 observations it is exactly 0; and it is never
negative. -/
theorem volatility_spec (l : List ℚ) :
    (l.length < 2 → volatility l = 0)
    ∧ 0 ≤ volatility l
    ∧ (2 ≤ l.length → volatility l = stdevMonthly l * Real.sqrt 12) := by
  refine ⟨fun h => by rw [volatility, if_pos h], ?_, fun h => by rw [volatility, if_neg (by omega)]⟩
  by_cases h : l.length < 2
  · rw [volatility, if_pos h]
  · rw [volatility, if_neg h]
    exact mul_nonneg (Real.sqrt_nonneg _) (Real.sqrt_nonneg _)

/-- Witness for C4: a single observation reports 0; two observations are
nonnegative. -/
theorem volatility_witness :
    volatility [1] = 0 ∧ 0 ≤ volatility [1, 2] :=
  ⟨(volatility_spec [1]).1 (by norm_num),
   (volatility_spec [1, 2]).2.1⟩

/- ────────────────────────────────────────────────────────────────
   Claim C2: TTWROR invariance under an offsetting deposit/removal pair
   ──────────────────────────────────────────────────────────────── -/

lemma sharesFold_nonneg (isin : String) (l : List EngTx) :
    ∀ pos : ℚ, 0 ≤ pos → 0 ≤ l.foldl (fun pos t => max 0 (pos + sharesDelta isin t)) pos := by
  induction l with
  | nil => intro pos h; simpa using h
  | cons t rest ih =>
    intro pos h
    exact ih _ (le_max_left 0 _)

lemma sharesAt_append_pair (txs : List EngTx) (isin : String) (d e : Nat) (x : ℚ)
    (acct : Option String) :
    sharesAt (txs ++ [depositTx d x acct, removalTx d x acct]) isin e = sharesAt txs isin e := by
  rw [sharesAt, sharesAt, List.filter_append, List.foldl_append]
  have hnn : 0 ≤ (txs.filter (fun t => decide (t.date ≤ e))).foldl
      (fun pos t => max 0 (pos + sharesDelta isin t)) 0 := sharesFold_nonneg _ _ 0 le_rfl
  by_cases hd : d ≤ e
  · have hfil : ([depositTx d x acct, removalTx d x acct].filter (fun t => decide (t.date ≤ e)))
        = [depositTx d x acct, removalTx d x acct] := by
      simp [depositTx, removalTx, hd]
    rw [hfil]
    simp only [List.foldl_cons, List.foldl_nil]
    rw [show sharesDelta isin (depositTx d x acct) = 0 by simp [sharesDelta, depositTx]]
    rw [show sharesDelta isin (removalTx d x acct) = 0 by simp [sharesDelta, removalTx]]
    rw [add_zero, add_zero, max_eq_right hnn, max_eq_right hnn]
  · have hfil : ([depositTx d x acct, removalTx d x acct].filter (fun t => decide (t.date ≤ e)))
        = [] := by
      simp [depositTx, removalTx, hd]
    rw [hfil]
    rfl

lemma valueAt_append_pair (master : List (String × (Nat → ℚ))) (txs : List EngTx)
    (d e : Nat) (x : ℚ) (acct : Option String) :
    valueAt master (txs ++ [depositTx d x acct, removalTx d x acct]) e
      = valueAt master txs e := by
  rw [valueAt, valueAt]
  congr 1
  · congr 1
    apply List.map_congr_left
    intro s _
    rw [sharesAt_append_pair]
  · rw [List.filter_append, List.map_append, List.sum_append]
    by_cases hd : d ≤ e
    · have hfil : ([depositTx d x acct, removalTx d x acct].filter (fun t => decide (t.date ≤ e)))
          = [depositTx d x acct, removalTx d x acct] := by
        simp [depositTx, removalTx, hd]
      rw [hfil]
      simp [cashDelta, depositTx, removalTx]
    · have hfil : ([depositTx d x acct, removalTx d x acct].filter (fun t => decide (t.date ≤ e)))
          = [] := by
        simp [depositTx, removalTx, hd]
      rw [hfil]
      simp

lemma extFlowAt_append_pair (txs : List EngTx) (d e : Nat) (x : ℚ) (acct : Option String) :
    extFlowAt (txs ++ [depositTx d x acct, removalTx d x acct]) e = extFlowAt txs e := by
  rw [extFlowAt, extFlowAt, List.filter_append, List.map_append, List.sum_append]
  by_cases hd : d = e
  · have hfil : ([depositTx d x acct, removalTx d x acct].filter (fun t => decide (t.date = e)))
        = [depositTx d x acct, removalTx d x acct] := by
      simp [depositTx, removalTx, hd]
    rw [hfil]
    simp [signedExtFlow, depositTx, removalTx]
  · have hfil : ([depositTx d x acct, removalTx d x acct].filter (fun t => decide (t.date = e)))
        = [] := by
      simp [depositTx, removalTx, hd]
    rw [hfil]
    simp

lemma isFlowDate_append_pair (txs : List EngTx) (d e : Nat) (x : ℚ) (acct : Option String) :
    isFlowDate (txs ++ [depositTx d x acct, removalTx d x acct]) e
      = (isFlowDate txs e || decide (d = e)) := by
  rw [isFlowDate, isFlowDate, List.any_append]
  congr 1
  simp [depositTx, removalTx, isExternal]

lemma signedExtFlow_eq_zero (t : EngTx) (h : isExternal t.ttype = false) :
    signedExtFlow t = 0 := by
  cases ht : t.ttype <;> simp [signedExtFlow, ht] <;> simp [isExternal, ht] at h

lemma extFlow_zero_of_not_flowDate (txs : List EngTx) (d : Nat)
    (h : isFlowDate txs d = false) : extFlowAt txs d = 0 := by
  induction txs with
  | nil => rfl
  | cons t rest ih =>
    rw [isFlowDate, List.any_cons, Bool.or_eq_false_iff] at h
    have hrest : extFlowAt rest d = 0 := ih h.2
    rw [extFlowAt] at hrest
    rw [extFlowAt, List.filter_cons]
    by_cases hd : t.date = d
    · have hext : isExternal t.ttype = false := by
        rcases Bool.and_eq_false_iff.mp h.1 with h' | h'
        · simp [hd] at h'
        · exact h'
      simp [hd, signedExtFlow_eq_zero t hext, hrest]
    · simp [hd, hrest]

lemma middleB_congr (flow flow' : Nat → Bool) :
    ∀ l : List Nat, (∀ e ∈ l, flow e = flow' e) → middleB flow l = middleB flow' l := by
  intro l
  induction l with
  | nil => intro _; rfl
  | cons b tl ih =>
    intro h
    cases tl with
    | nil => rfl
    | cons c rest =>
      have htl := ih (fun e he => h e (by simp [he]))
      rw [middleB, middleB, h b (by simp), htl]

lemma middleB_ne_nil (flow : Nat → Bool) :
    ∀ l : List Nat, l ≠ [] → middleB flow l ≠ [] := by
  intro l
  induction l with
  | nil => intro h; exact absurd rfl h
  | cons b tl ih =>
    intro _
    cases tl with
    | nil => simp [middleB]
    | cons c rest =>
      rw [middleB]
      by_cases hb : flow b = true
      · simp [hb]
      · rw [Bool.not_eq_true] at hb
        simp only [hb, Bool.false_eq_true, if_false]
        exact ih (by simp)

lemma div_chain (va vd x : ℚ) (h : vd ≠ 0) : vd / va * (x / vd) = x / va := by
  rcases eq_or_ne va 0 with h0 | h0
  · simp [h0]
  · field_simp
    ring

lemma linkFactors_flip (V CF : Nat → ℚ) (flow : Nat → Bool) (d : Nat)
    (hV : V d ≠ 0) (hCF : flow d = false → CF d = 0) :
    ∀ l : List Nat, l.Nodup → ∀ a : Nat,
      linkFactors V CF (a :: middleB (fun e => flow e || decide (d = e)) l)
        = linkFactors V CF (a :: middleB flow l) := by
  intro l
  induction l with
  | nil => intro _ a; rfl
  | cons b tl ih =>
    intro hnd a
    cases tl with
    | nil => rfl
    | cons c rest =>
      have hndtl : (c :: rest).Nodup := (List.nodup_cons.mp hnd).2
      by_cases hb : b = d
      · subst hb
        have hnotin : b ∉ c :: rest := (List.nodup_cons.mp hnd).1
        have hcongr : middleB (fun e => flow e || decide (b = e)) (c :: rest)
            = middleB flow (c :: rest) := by
          symm
          apply middleB_congr
          intro e he
          have hne : b ≠ e := fun hc => hnotin (hc ▸ he)
          simp [hne]
        by_cases hfb : flow b = true
        · rw [middleB, middleB]
          simp only [hfb, Bool.true_or, if_true]
          rw [hcongr]
        · rw [Bool.not_eq_true] at hfb
          rw [middleB, middleB]
          simp only [hfb, Bool.false_or, decide_eq_true_eq, Bool.false_eq_true, if_false]
          rw [if_pos trivial, hcongr]
          have hM := middleB_ne_nil flow (c :: rest) (by simp)
          cases hMv : middleB flow (c :: rest) with
          | nil => exact absurd hMv hM
          | cons m M =>
            rw [linkFactors, linkFactors, linkFactors, hCF hfb, sub_zero, ← mul_assoc,
              div_chain (V a) (V b) _ hV]
      · have hdb : (decide (d = b)) = false := decide_eq_false (fun hc => hb hc.symm)
        by_cases hfb : flow b = true
        · rw [middleB, middleB]
          simp only [hdb, Bool.or_false, hfb, if_true]
          show ((V b - CF b) / V a)
              * linkFactors V CF (b :: middleB (fun e => flow e || decide (d = e)) (c :: rest))
            = ((V b - CF b) / V a) * linkFactors V CF (b :: middleB flow (c :: rest))
          rw [ih hndtl b]
        · rw [Bool.not_eq_true] at hfb
          rw [middleB, middleB]
          simp only [hdb, Bool.or_false, hfb, Bool.false_eq_true, if_false]
          exact ih hndtl a

/-- C2: inserting a DEPOSIT and an offsetting REMOVAL of the same value
on the same date into the ledger leaves the computed TTWROR unchanged,
holding prices constant: the pair is value-neutral and flow-neutral, and
the sub-period boundary it may introduce carries a zero net cash flow, so
the geometric linking telescopes across it.  The hypotheses ask for a
duplicate-free valuation grid and a nonzero portfolio value on the
insertion date. -/
theorem ttwror_depositRemoval_invariant (master : List (String × (Nat → ℚ)))
    (txs : List EngTx) (grid : List Nat) (d : Nat) (x : ℚ) (acct : Option String)
    (hnd : grid.Nodup) (hV : valueAt master txs d ≠ 0) :
    ttwror master (txs ++ [depositTx d x acct, removalTx d x acct]) grid
      = ttwror master txs grid := by
  have hVfun : valueAt master (txs ++ [depositTx d x acct, removalTx d x acct])
      = valueAt master txs := by
    funext e
    exact valueAt_append_pair master txs d e x acct
  have hCFfun : extFlowAt (txs ++ [depositTx d x acct, removalTx d x acct])
      = extFlowAt txs := by
    funext e
    exact extFlowAt_append_pair txs d e x acct
  have hFlowfun : isFlowDate (txs ++ [depositTx d x acct, removalTx d x acct])
      = fun e => isFlowDate txs e || decide (d = e) := by
    funext e
    exact isFlowDate_append_pair txs d e x acct
  rw [ttwror, ttwror, hVfun, hCFfun, hFlowfun]
  congr 1
  cases grid with
  | nil => rfl
  | cons a rest =>
    rw [boundaryDates, boundaryDates]
    exact linkFactors_flip (valueAt master txs) (extFlowAt txs) (isFlowDate txs) d hV
      (fun hflow => extFlow_zero_of_not_flowDate txs d hflow)
      rest (List.nodup_cons.mp hnd).2 a

/-- Witness for C2: a ledger holding a single opening deposit of 100; the
offsetting 50/50 pair inserted on day 1 leaves the TTWROR over the grid
0,1,2 unchanged. -/
theorem ttwror_depositRemoval_witness :
    ttwror [] ([⟨0, .DEPOSIT, 100, 0, none, none, none⟩]
        ++ [depositTx 1 50 none, removalTx 1 50 none]) [0, 1, 2]
      = ttwror [] [⟨0, .DEPOSIT, 100, 0, none, none, none⟩] [0, 1, 2] :=
  ttwror_depositRemoval_invariant [] [⟨0, .DEPOSIT, 100, 0, none, none, none⟩]
    [0, 1, 2] 1 50 none (by decide) (by norm_num [valueAt, cashDelta])
